import Mathlib

/-!
Verification of the volumetric-processing pipeline of Project Helix
(`src/app.py`): intensity normalization, percentile contrast windowing,
threshold segmentation, symmetric peeling, slice extraction, isosurface
extraction and scene assembly.

NumPy 3D arrays are embedded as rectangular nested lists over `ℚ`
(intensities) or `Bool` (masks); rectangularity of an array of shape
`(n0, n1, n2)` is the predicate `wf3 n0 n1 n2`.  NumPy float arithmetic
is modelled by exact rational arithmetic, with the source's literal
`1e-8` stabiliser kept as the rational `eps`.
-/

namespace Helix

/-- A 3D array (NumPy `ndarray` of ndim 3) as nested lists. -/
abbrev Arr3 (α : Type) : Type := List (List (List α))

/-- A 3D scalar field (float voxel intensities). -/
abbrev Vol : Type := Arr3 ℚ

/-- `volume.shape[0]`. -/
def dim0 (v : Arr3 α) : ℕ := v.length

/-- `volume.shape[1]` (length of the first plane; NumPy arrays are rectangular). -/
def dim1 (v : Arr3 α) : ℕ := (v.headD []).length

/-- `volume.shape[2]`. -/
def dim2 (v : Arr3 α) : ℕ := ((v.headD []).headD []).length

/-- Rectangularity: the array has shape `(n0, n1, n2)`. -/
def wf3 (n0 n1 n2 : ℕ) (v : Arr3 α) : Prop :=
  v.length = n0 ∧ ∀ p ∈ v, p.length = n1 ∧ ∀ r ∈ p, r.length = n2

instance (n0 n1 n2 : ℕ) (v : Arr3 α) : Decidable (wf3 n0 n1 n2 v) := by
  unfold wf3; infer_instance

/-- All voxels of a 3D array, in row-major order (NumPy `ravel`). -/
def flat3 (v : Arr3 α) : List α := (v.map List.flatten).flatten

/-- Elementwise map over a 3D array (NumPy broadcasting of a scalar function). -/
def map3 (f : α → β) (v : Arr3 α) : Arr3 β :=
  v.map (fun p => p.map (fun r => r.map f))

/-- All pixels of a 2D array. -/
def flat2 (img : List (List α)) : List α := img.flatten

/-- `min` of a nonempty list, as NumPy `a.min()` (0 on the empty array,
where NumPy would raise instead; all theorems assume nonemptiness). -/
def amin : List ℚ → ℚ
  | [] => 0
  | x :: t => t.foldl min x

/-- `max` of a nonempty list, as NumPy `a.max()`. -/
def amax : List ℚ → ℚ
  | [] => 0
  | x :: t => t.foldl max x

/-- `volume.min()`. -/
def vmin (v : Vol) : ℚ := amin (flat3 v)

/-- `volume.max()`. -/
def vmax (v : Vol) : ℚ := amax (flat3 v)

/-- The source's `1e-8` stabiliser added to every normalization denominator. -/
def eps : ℚ := 1 / 100000000

/-- Min-max normalization, `(volume - volume.min()) / (volume.max() - volume.min() + 1e-8)`
(src/app.py line 36 and lines 124-126). -/
def minmaxNorm (v : Vol) : Vol :=
  map3 (fun x => (x - vmin v) / (vmax v - vmin v + eps)) v

/-- Python slice `xs[d : stop]` for a nonnegative stop index. -/
def crop1 (d stop : ℕ) (xs : List α) : List α := (xs.take stop).drop d

/-- The peeling crop of src/app.py lines 111-121: `a[d : s0-d, d : s1-d, d : s2-d]`,
where `(s0, s1, s2)` is `volume.shape` (the source uses the volume's shape for the
mask crop as well). -/
def peelWith (s0 s1 s2 d : ℕ) (v : Arr3 α) : Arr3 α :=
  (crop1 d (s0 - d) v).map (fun p => (crop1 d (s1 - d) p).map (crop1 d (s2 - d)))

/-- `peeled_volume` (src/app.py lines 111-115). -/
def peeled_volume (volume : Vol) (peel_depth : ℕ) : Vol :=
  peelWith (dim0 volume) (dim1 volume) (dim2 volume) peel_depth volume

/-- `peeled_tumor` (src/app.py lines 117-121): the mask is cropped with the
bounds computed from `volume.shape`. -/
def peeled_tumor (volume : Vol) (tumor_mask_3d : Arr3 Bool) (peel_depth : ℕ) : Arr3 Bool :=
  peelWith (dim0 volume) (dim1 volume) (dim2 volume) peel_depth tumor_mask_3d

/-- `pv_norm` (src/app.py lines 124-126): min-max normalization of the peeled volume
over the peeled volume's own minimum and maximum. -/
def pv_norm (volume : Vol) (peel_depth : ℕ) : Vol :=
  minmaxNorm (peeled_volume volume peel_depth)

/-- The spec's crop of one axis, `xs[d:-d]` (meaningful for `d > 0`), which for a
list of length `n` is `xs[d : n-d]` computed from the list's own length. -/
def specCrop1 (d : ℕ) (xs : List α) : List α := (xs.take (xs.length - d)).drop d

/-- The spec's peel, `a[d:-d, d:-d, d:-d]`: every axis cropped by its own length. -/
def specPeel (d : ℕ) (v : Arr3 α) : Arr3 α :=
  (specCrop1 d v).map (fun p => (specCrop1 d p).map (specCrop1 d))

end Helix

namespace Helix

theorem crop1_eq_specCrop1 {α : Type} (d n : ℕ) (xs : List α) (h : xs.length = n) :
    crop1 d (n - d) xs = specCrop1 d xs := by
  simp [crop1, specCrop1, h]

theorem mem_of_mem_specCrop1 {α : Type} {xs : List α} {a : α} {d : ℕ}
    (h : a ∈ specCrop1 d xs) : a ∈ xs :=
  List.mem_of_mem_take (List.mem_of_mem_drop h)

theorem dims_of_wf3 {α : Type} {n0 n1 n2 : ℕ} {v : Arr3 α} (hw : wf3 n0 n1 n2 v)
    (h0 : 0 < n0) (h1 : 0 < n1) :
    dim0 v = n0 ∧ dim1 v = n1 ∧ dim2 v = n2 := by
  obtain ⟨hl, hp⟩ := hw
  cases v with
  | nil => simp at hl; omega
  | cons p t =>
    have hpm := hp p (List.mem_cons_self _ _)
    cases p with
    | nil =>
      exfalso
      have : (0 : ℕ) = n1 := hpm.1
      omega
    | cons r s =>
      refine ⟨hl, ?_, ?_⟩
      · simpa [dim1] using hpm.1
      · have hrm := hpm.2 r (List.mem_cons_self _ _)
        simpa [dim2] using hrm

theorem peelWith_eq_specPeel {α : Type} {n0 n1 n2 : ℕ} (d : ℕ) {v : Arr3 α}
    (hw : wf3 n0 n1 n2 v) :
    peelWith n0 n1 n2 d v = specPeel d v := by
  obtain ⟨hl, hp⟩ := hw
  unfold peelWith specPeel
  rw [crop1_eq_specCrop1 d n0 v hl]
  refine List.map_congr_left ?_
  intro p hpmem
  obtain ⟨hpl, hr⟩ := hp p (mem_of_mem_specCrop1 hpmem)
  rw [crop1_eq_specCrop1 d n1 p hpl]
  refine List.map_congr_left ?_
  intro r hrmem
  exact crop1_eq_specCrop1 d n2 r (hr r (mem_of_mem_specCrop1 hrmem))

theorem crop1_zero {α : Type} {n : ℕ} {xs : List α} (h : xs.length ≤ n) :
    crop1 0 (n - 0) xs = xs := by
  have h2 : xs.length ≤ n - 0 := by omega
  unfold crop1
  rw [List.drop_zero, List.take_of_length_le h2]

theorem peelWith_zero {α : Type} {n0 n1 n2 : ℕ} {v : Arr3 α} (hw : wf3 n0 n1 n2 v) :
    peelWith n0 n1 n2 0 v = v := by
  obtain ⟨hl, hp⟩ := hw
  unfold peelWith
  rw [crop1_zero (le_of_eq hl)]
  have hmap : ∀ p ∈ v, (crop1 0 (n1 - 0) p).map (crop1 0 (n2 - 0)) = id p := by
    intro p hpv
    obtain ⟨hpl, hr⟩ := hp p hpv
    rw [crop1_zero (le_of_eq hpl)]
    have hrow : ∀ r ∈ p, crop1 0 (n2 - 0) r = id r :=
      fun r hrp => crop1_zero (le_of_eq (hr r hrp))
    rw [List.map_congr_left hrow, List.map_id]
    rfl
  rw [List.map_congr_left hmap, List.map_id]

/-- Claim C3: for every field and same-shaped mask and every in-bounds depth d > 0,
the peeling of src/app.py lines 111-121 removes d voxels from every face: the peeled
field equals `field[d:-d, d:-d, d:-d]` and the peeled mask equals
`mask[d:-d, d:-d, d:-d]`, so field and mask are cropped in lockstep over the same
index ranges on all three axes. -/
theorem peel_eq_cropped_slice {n0 n1 n2 : ℕ} (volume : Vol) (mask : Arr3 Bool) (d : ℕ)
    (hwv : wf3 n0 n1 n2 volume) (hwm : wf3 n0 n1 n2 mask)
    (hd : 0 < d) (hbound : 2 * d < min n0 (min n1 n2)) :
    peeled_volume volume d = specPeel d volume ∧
    peeled_tumor volume mask d = specPeel d mask := by
  have hm0 : 2 * d < n0 := lt_of_lt_of_le hbound (min_le_left _ _)
  have hm1 : 2 * d < n1 :=
    lt_of_lt_of_le hbound (le_trans (min_le_right _ _) (min_le_left _ _))
  obtain ⟨e0, e1, e2⟩ := dims_of_wf3 hwv (by omega) (by omega)
  constructor
  · unfold peeled_volume
    rw [e0, e1, e2]
    exact peelWith_eq_specPeel d hwv
  · unfold peeled_tumor
    rw [e0, e1, e2]
    exact peelWith_eq_specPeel d hwm

/-- Witness for C3 at a concrete 3×3×3 field/mask pair with depth 1. -/
theorem peel_eq_cropped_slice_witness :
    wf3 3 3 3 ([[[0,1,2],[3,4,5],[6,7,8]],
                [[9,10,11],[12,13,14],[15,16,17]],
                [[18,19,20],[21,22,23],[24,25,26]]] : Vol) ∧
    0 < 1 ∧ 2 * 1 < min 3 (min 3 3) ∧
    (peeled_volume [[[0,1,2],[3,4,5],[6,7,8]],
                    [[9,10,11],[12,13,14],[15,16,17]],
                    [[18,19,20],[21,22,23],[24,25,26]]] 1 =
      specPeel 1 [[[0,1,2],[3,4,5],[6,7,8]],
                  [[9,10,11],[12,13,14],[15,16,17]],
                  [[18,19,20],[21,22,23],[24,25,26]]] ∧
     peeled_tumor [[[0,1,2],[3,4,5],[6,7,8]],
                   [[9,10,11],[12,13,14],[15,16,17]],
                   [[18,19,20],[21,22,23],[24,25,26]]]
        (List.replicate 3 (List.replicate 3 [false, true, false])) 1 =
      specPeel 1 (List.replicate 3 (List.replicate 3 [false, true, false]))) :=
  ⟨by decide, by decide, by decide,
   @peel_eq_cropped_slice 3 3 3 _ _ 1 (by decide) (by decide) (by decide) (by decide)⟩

/-- Claim C4: for every field and same-shaped mask (axes all ≥ 1, the data-model
invariant), peeling at depth 0 is the identity transform: src/app.py lines 111-121
return the field and mask unchanged. -/
theorem peel_depth_zero_identity {n0 n1 n2 : ℕ} (volume : Vol) (mask : Arr3 Bool)
    (hwv : wf3 n0 n1 n2 volume) (hwm : wf3 n0 n1 n2 mask)
    (h0 : 0 < n0) (h1 : 0 < n1) (h2 : 0 < n2) :
    peeled_volume volume 0 = volume ∧ peeled_tumor volume mask 0 = mask := by
  obtain ⟨e0, e1, e2⟩ := dims_of_wf3 hwv h0 h1
  constructor
  · unfold peeled_volume
    rw [e0, e1, e2]
    exact peelWith_zero hwv
  · unfold peeled_tumor
    rw [e0, e1, e2]
    exact peelWith_zero hwm

/-- Witness for C4 at a concrete 2×2×2 field/mask pair. -/
theorem peel_depth_zero_identity_witness :
    wf3 2 2 2 ([[[5,1],[2,3]],[[4,6],[7,8]]] : Vol) ∧
    wf3 2 2 2 ([[[true,false],[false,true]],[[false,false],[true,true]]] : Arr3 Bool) ∧
    (peeled_volume [[[5,1],[2,3]],[[4,6],[7,8]]] 0 = [[[5,1],[2,3]],[[4,6],[7,8]]] ∧
     peeled_tumor [[[5,1],[2,3]],[[4,6],[7,8]]]
        [[[true,false],[false,true]],[[false,false],[true,true]]] 0 =
        [[[true,false],[false,true]],[[false,false],[true,true]]]) :=
  ⟨by decide, by decide,
   @peel_depth_zero_identity 2 2 2 _ _ (by decide) (by decide)
     (by decide) (by decide) (by decide)⟩

end Helix

namespace Helix

theorem flat3_map3 {α β : Type} (f : α → β) (v : Arr3 α) :
    flat3 (map3 f v) = (flat3 v).map f := by
  unfold flat3 map3
  rw [List.map_flatten, List.map_map, List.map_map]
  congr 1
  refine List.map_congr_left ?_
  intro p _
  simp [List.map_flatten]

theorem foldl_min_le_init (a : ℚ) (l : List ℚ) : l.foldl min a ≤ a := by
  induction l generalizing a with
  | nil => exact le_refl a
  | cons b t ih => exact le_trans (ih (min a b)) (min_le_left a b)

theorem foldl_min_le_mem {x : ℚ} {l : List ℚ} (a : ℚ) (h : x ∈ l) :
    l.foldl min a ≤ x := by
  induction l generalizing a with
  | nil => cases h
  | cons b t ih =>
    rcases List.mem_cons.1 h with hx | hx
    · subst hx
      exact le_trans (foldl_min_le_init (min a x) t) (min_le_right a x)
    · exact ih (min a b) hx

theorem foldl_min_mem (a : ℚ) (l : List ℚ) : l.foldl min a ∈ a :: l := by
  induction l generalizing a with
  | nil => exact List.mem_singleton.2 rfl
  | cons b t ih =>
    have h := ih (min a b)
    rcases List.mem_cons.1 h with hx | hx
    · rcases min_choice a b with hm | hm
      · exact List.mem_cons.2 (Or.inl (hx.trans hm))
      · exact List.mem_cons.2 (Or.inr (List.mem_cons.2 (Or.inl (hx.trans hm))))
    · exact List.mem_cons.2 (Or.inr (List.mem_cons.2 (Or.inr hx)))

theorem foldl_max_init_le (a : ℚ) (l : List ℚ) : a ≤ l.foldl max a := by
  induction l generalizing a with
  | nil => exact le_refl a
  | cons b t ih => exact le_trans (le_max_left a b) (ih (max a b))

theorem foldl_max_mem_le {x : ℚ} {l : List ℚ} (a : ℚ) (h : x ∈ l) :
    x ≤ l.foldl max a := by
  induction l generalizing a with
  | nil => cases h
  | cons b t ih =>
    rcases List.mem_cons.1 h with hx | hx
    · subst hx
      exact le_trans (le_max_right a x) (foldl_max_init_le (max a x) t)
    · exact ih (max a b) hx

theorem foldl_max_mem (a : ℚ) (l : List ℚ) : l.foldl max a ∈ a :: l := by
  induction l generalizing a with
  | nil => exact List.mem_singleton.2 rfl
  | cons b t ih =>
    have h := ih (max a b)
    rcases List.mem_cons.1 h with hx | hx
    · rcases max_choice a b with hm | hm
      · exact List.mem_cons.2 (Or.inl (hx.trans hm))
      · exact List.mem_cons.2 (Or.inr (List.mem_cons.2 (Or.inl (hx.trans hm))))
    · exact List.mem_cons.2 (Or.inr (List.mem_cons.2 (Or.inr hx)))

theorem amin_le_mem {xs : List ℚ} {y : ℚ} (h : y ∈ xs) : amin xs ≤ y := by
  cases xs with
  | nil => cases h
  | cons x t =>
    rcases List.mem_cons.1 h with hy | hy
    · subst hy
      exact foldl_min_le_init y t
    · exact foldl_min_le_mem x hy

theorem amin_mem {xs : List ℚ} (h : xs ≠ []) : amin xs ∈ xs := by
  cases xs with
  | nil => exact absurd rfl h
  | cons x t => exact foldl_min_mem x t

theorem mem_le_amax {xs : List ℚ} {y : ℚ} (h : y ∈ xs) : y ≤ amax xs := by
  cases xs with
  | nil => cases h
  | cons x t =>
    rcases List.mem_cons.1 h with hy | hy
    · subst hy
      exact foldl_max_init_le y t
    · exact foldl_max_mem_le x hy

theorem amax_mem {xs : List ℚ} (h : xs ≠ []) : amax xs ∈ xs := by
  cases xs with
  | nil => exact absurd rfl h
  | cons x t => exact foldl_max_mem x t

theorem vmin_le_vmax {v : Vol} (h : flat3 v ≠ []) : vmin v ≤ vmax v :=
  le_trans (amin_le_mem (amin_mem h)) (mem_le_amax (amin_mem h))

theorem eps_pos : 0 < eps := by norm_num [eps]

theorem minmax_denom_pos {v : Vol} (h : flat3 v ≠ []) :
    0 < vmax v - vmin v + eps := by
  have h1 := vmin_le_vmax h
  have h2 := eps_pos
  linarith

/-- Claim C5: for every constant-valued (degenerate) nonempty input field, the
min-max normalization of src/app.py line 36 / lines 124-126 returns a field that is
zero everywhere; its denominator is strictly positive, so no division-by-zero
artifact (NaN/Inf) arises and no error is raised. -/
theorem minmax_const_zero (v : Vol) (c : ℚ) (hne : flat3 v ≠ [])
    (hc : ∀ x ∈ flat3 v, x = c) :
    (∀ y ∈ flat3 (minmaxNorm v), y = 0) ∧ 0 < vmax v - vmin v + eps := by
  have hmin : vmin v = c := hc _ (amin_mem hne)
  have hmax : vmax v = c := hc _ (amax_mem hne)
  refine ⟨?_, minmax_denom_pos hne⟩
  intro y hy
  unfold minmaxNorm at hy
  rw [flat3_map3] at hy
  obtain ⟨x, hx, hfx⟩ := List.mem_map.1 hy
  rw [← hfx, hc x hx, hmin, hmax]
  simp

/-- Witness for C5 at the constant 1×2×2 field of value 2. -/
theorem minmax_const_zero_witness :
    flat3 ([[[2, 2], [2, 2]]] : Vol) ≠ [] ∧
    (∀ x ∈ flat3 ([[[2, 2], [2, 2]]] : Vol), x = 2) ∧
    ((∀ y ∈ flat3 (minmaxNorm [[[2, 2], [2, 2]]]), y = 0) ∧
      0 < vmax [[[2, 2], [2, 2]]] - vmin [[[2, 2], [2, 2]]] + eps) :=
  ⟨by decide, by decide, minmax_const_zero _ 2 (by decide) (by decide)⟩

end Helix

namespace Helix

/-- `np.sort` of flattened data (ascending), as used inside `np.percentile`. -/
def npSort (xs : List ℚ) : List ℚ := xs.insertionSort (· ≤ ·)

/-- Linear interpolation into sorted data `s` at fractional index `pos`
(NumPy's default percentile interpolation): with `i = ⌊pos⌋`, the value
`s[i] + (pos - i) * (s[min (i+1) (n-1)] - s[i])`. -/
def interpAt (s : List ℚ) (pos : ℚ) : ℚ :=
  s.getD (⌊pos⌋).toNat 0 +
    (pos - ((⌊pos⌋).toNat : ℚ)) *
      (s.getD (min ((⌊pos⌋).toNat + 1) (s.length - 1)) 0 - s.getD (⌊pos⌋).toNat 0)

/-- `np.percentile(a, q)` (default linear method): the interpolated value at
fractional index `q/100 * (n-1)` of the sorted flattened data. -/
def percentile (q : ℚ) (xs : List ℚ) : ℚ :=
  interpAt (npSort xs) (q / 100 * (((npSort xs).length : ℚ) - 1))

theorem npSort_length (xs : List ℚ) : (npSort xs).length = xs.length :=
  (List.perm_insertionSort (· ≤ ·) xs).length_eq

theorem npSort_sorted (xs : List ℚ) : (npSort xs).Sorted (· ≤ ·) :=
  List.sorted_insertionSort (· ≤ ·) xs

theorem sorted_getD_mono {s : List ℚ} (hs : s.Sorted (· ≤ ·)) {i j : ℕ}
    (hij : i ≤ j) (hj : j < s.length) : s.getD i 0 ≤ s.getD j 0 := by
  rcases eq_or_lt_of_le hij with heq | hlt
  · subst heq
    exact le_refl _
  · have hi : i < s.length := lt_trans hlt hj
    rw [List.getD_eq_getElem s 0 hi, List.getD_eq_getElem s 0 hj]
    exact List.pairwise_iff_getElem.1 hs i j hi hj hlt

theorem toNat_floor_le {p : ℚ} (h0 : 0 ≤ p) : ((⌊p⌋).toNat : ℚ) ≤ p := by
  have hf : (0 : ℤ) ≤ ⌊p⌋ := Int.floor_nonneg.2 h0
  have : ((⌊p⌋).toNat : ℤ) = ⌊p⌋ := Int.toNat_of_nonneg hf
  calc ((⌊p⌋).toNat : ℚ) = ((⌊p⌋ : ℤ) : ℚ) := by exact_mod_cast this
  _ ≤ p := Int.floor_le p

theorem lt_toNat_floor_add_one {p : ℚ} (h0 : 0 ≤ p) : p < ((⌊p⌋).toNat : ℚ) + 1 := by
  have hf : (0 : ℤ) ≤ ⌊p⌋ := Int.floor_nonneg.2 h0
  have heq : ((⌊p⌋).toNat : ℤ) = ⌊p⌋ := Int.toNat_of_nonneg hf
  have h2 : p < ((⌊p⌋ : ℤ) : ℚ) + 1 := Int.lt_floor_add_one p
  have h3 : ((⌊p⌋).toNat : ℚ) = ((⌊p⌋ : ℤ) : ℚ) := by exact_mod_cast heq
  rw [h3]
  exact h2

theorem toNat_floor_le_of_le {p : ℚ} {n : ℕ} (h0 : 0 ≤ p) (h : p ≤ (n : ℚ) - 1)
    (hn : 1 ≤ n) : (⌊p⌋).toNat ≤ n - 1 := by
  have h1 : ((n : ℚ) - 1) = (((n : ℤ) - 1 : ℤ) : ℚ) := by push_cast; ring
  have h2 : ⌊p⌋ ≤ (n : ℤ) - 1 := by
    have := Int.floor_le_floor (le_trans h (le_of_eq h1))
    rwa [Int.floor_intCast] at this
  omega

theorem interpAt_mono {s : List ℚ} (hs : s.Sorted (· ≤ ·)) (hne : s ≠ [])
    {p p' : ℚ} (h0 : 0 ≤ p) (hpp : p ≤ p') (hub : p' ≤ (s.length : ℚ) - 1) :
    interpAt s p ≤ interpAt s p' := by
  have hn1 : 1 ≤ s.length := List.length_pos.2 hne
  have h0' : 0 ≤ p' := le_trans h0 hpp
  have hip : (((⌊p⌋).toNat : ℕ) : ℚ) ≤ p := toNat_floor_le h0
  have hpi : p < (((⌊p⌋).toNat : ℕ) : ℚ) + 1 := lt_toNat_floor_add_one h0
  have hjp : (((⌊p'⌋).toNat : ℕ) : ℚ) ≤ p' := toNat_floor_le h0'
  have hjn : (⌊p'⌋).toNat ≤ s.length - 1 := toNat_floor_le_of_le h0' hub hn1
  have hij : (⌊p⌋).toNat ≤ (⌊p'⌋).toNat := by
    have := Int.floor_le_floor hpp
    omega
  have hin : (⌊p⌋).toNat ≤ s.length - 1 := le_trans hij hjn
  have hmin_i : min ((⌊p⌋).toNat + 1) (s.length - 1) < s.length := by omega
  have hmin_j : min ((⌊p'⌋).toNat + 1) (s.length - 1) < s.length := by omega
  have hab : s.getD (⌊p⌋).toNat 0 ≤ s.getD (min ((⌊p⌋).toNat + 1) (s.length - 1)) 0 :=
    sorted_getD_mono hs (by omega) hmin_i
  have hce : s.getD (⌊p'⌋).toNat 0 ≤ s.getD (min ((⌊p'⌋).toNat + 1) (s.length - 1)) 0 :=
    sorted_getD_mono hs (by omega) hmin_j
  rcases eq_or_lt_of_le hij with heq | hlt
  · unfold interpAt
    rw [← heq]
    have hfrac : p - (((⌊p⌋).toNat : ℕ) : ℚ) ≤ p' - (((⌊p⌋).toNat : ℕ) : ℚ) := by linarith
    have hba : 0 ≤ s.getD (min ((⌊p⌋).toNat + 1) (s.length - 1)) 0 - s.getD (⌊p⌋).toNat 0 := by
      linarith
    nlinarith [mul_le_mul_of_nonneg_right hfrac hba]
  · -- interpAt s p ≤ s[min (i+1) (n-1)] ≤ s[j] ≤ interpAt s p'
    have hbc : s.getD (min ((⌊p⌋).toNat + 1) (s.length - 1)) 0 ≤ s.getD (⌊p'⌋).toNat 0 :=
      sorted_getD_mono hs (by omega) (by omega)
    have h_up : interpAt s p ≤ s.getD (min ((⌊p⌋).toNat + 1) (s.length - 1)) 0 := by
      unfold interpAt
      have hfrac1 : p - (((⌊p⌋).toNat : ℕ) : ℚ) ≤ 1 := by linarith
      have hba : 0 ≤ s.getD (min ((⌊p⌋).toNat + 1) (s.length - 1)) 0 - s.getD (⌊p⌋).toNat 0 := by
        linarith
      nlinarith [mul_le_of_le_one_left hba hfrac1]
    have h_lo : s.getD (⌊p'⌋).toNat 0 ≤ interpAt s p' := by
      unfold interpAt
      have hfrac0 : 0 ≤ p' - (((⌊p'⌋).toNat : ℕ) : ℚ) := by linarith
      have hec : 0 ≤ s.getD (min ((⌊p'⌋).toNat + 1) (s.length - 1)) 0 - s.getD (⌊p'⌋).toNat 0 := by
        linarith
      nlinarith [mul_nonneg hfrac0 hec]
    linarith

theorem percentile_mono {q q' : ℚ} (xs : List ℚ) (hne : xs ≠ [])
    (h0 : 0 ≤ q) (hqq : q ≤ q') (h100 : q' ≤ 100) :
    percentile q xs ≤ percentile q' xs := by
  have hsne : npSort xs ≠ [] := by
    intro h
    apply hne
    have hlen := npSort_length xs
    rw [h] at hlen
    exact List.length_eq_zero.1 hlen.symm
  have hn1 : 1 ≤ (npSort xs).length := List.length_pos.2 hsne
  have hnn : 0 ≤ ((npSort xs).length : ℚ) - 1 := by
    have : (1 : ℚ) ≤ ((npSort xs).length : ℚ) := by exact_mod_cast hn1
    linarith
  unfold percentile
  apply interpAt_mono (npSort_sorted xs) hsne
  · exact mul_nonneg (div_nonneg h0 (by norm_num)) hnn
  · have : q / 100 ≤ q' / 100 := by linarith
    exact mul_le_mul_of_nonneg_right this hnn
  · have hq1 : q' / 100 ≤ 1 := by linarith
    exact mul_le_of_le_one_left hnn hq1

end Helix

namespace Helix

/-- `np.clip(x, lo, hi)` on a scalar. -/
def npClip (lo hi x : ℚ) : ℚ := min (max x lo) hi

/-- The per-pixel contrast-windowing map of src/app.py lines 81-82: clip to
`[low, high]`, then rescale by `(x - low) / (high - low + 1e-8)`. -/
def winNorm (lo hi x : ℚ) : ℚ := (npClip lo hi x - lo) / (hi - lo + eps)

/-- `low` of src/app.py line 80: `np.percentile(slice_img, 2)`. -/
def winLow (img : List (List ℚ)) : ℚ := percentile 2 (flat2 img)

/-- `high` of src/app.py line 80: `np.percentile(slice_img, 98)`. -/
def winHigh (img : List (List ℚ)) : ℚ := percentile 98 (flat2 img)

/-- src/app.py lines 80-82 applied to a 2D slice. -/
def window2 (img : List (List ℚ)) : List (List ℚ) :=
  img.map (List.map (winNorm (winLow img) (winHigh img)))

theorem flat2_map2 {α β : Type} (f : α → β) (img : List (List α)) :
    flat2 (img.map (List.map f)) = (flat2 img).map f :=
  (List.map_flatten f img).symm

theorem winLow_le_winHigh {img : List (List ℚ)} (hne : flat2 img ≠ []) :
    winLow img ≤ winHigh img :=
  percentile_mono (flat2 img) hne (by norm_num) (by norm_num) (by norm_num)

theorem winNorm_denom_pos {lo hi : ℚ} (h : lo ≤ hi) : 0 < hi - lo + eps := by
  have := eps_pos
  linarith

/-- Claim C6: for every nonempty input field, the percentile (clip-then-rescale)
windowing normalization of src/app.py lines 80-82 produces output values bounded
within [0,1], and the per-pixel map is monotone in the original intensity ordering:
whenever one input pixel's value is at most another's, the same ordering holds
between their normalized values. -/
theorem window_bounded_monotone (img : List (List ℚ)) (hne : flat2 img ≠ []) :
    (∀ x ∈ flat2 img, ∀ y ∈ flat2 img, x ≤ y →
        winNorm (winLow img) (winHigh img) x ≤ winNorm (winLow img) (winHigh img) y) ∧
    (∀ z ∈ flat2 (window2 img), 0 ≤ z ∧ z ≤ 1) := by
  have hlh : winLow img ≤ winHigh img := winLow_le_winHigh hne
  have hd : 0 < winHigh img - winLow img + eps := winNorm_denom_pos hlh
  constructor
  · intro x _ y _ hxy
    unfold winNorm
    rw [div_le_div_iff_of_pos_right hd]
    have h1 : max x (winLow img) ≤ max y (winLow img) :=
      max_le_max hxy (le_refl _)
    have h2 : npClip (winLow img) (winHigh img) x ≤ npClip (winLow img) (winHigh img) y :=
      min_le_min h1 (le_refl _)
    linarith
  · intro z hz
    unfold window2 at hz
    rw [flat2_map2] at hz
    obtain ⟨x, _, hfx⟩ := List.mem_map.1 hz
    subst hfx
    have hclip_lo : winLow img ≤ npClip (winLow img) (winHigh img) x :=
      le_min (le_max_right x (winLow img)) hlh
    have hclip_hi : npClip (winLow img) (winHigh img) x ≤ winHigh img :=
      min_le_right _ _
    have he : 0 < eps := eps_pos
    constructor
    · exact div_nonneg (by linarith) (le_of_lt hd)
    · rw [winNorm, div_le_one hd]
      linarith

/-- Witness for C6 at a concrete 2×2 slice. -/
theorem window_bounded_monotone_witness :
    flat2 ([[1, 5], [3, 9]] : List (List ℚ)) ≠ [] ∧
    ((∀ x ∈ flat2 ([[1, 5], [3, 9]] : List (List ℚ)),
        ∀ y ∈ flat2 ([[1, 5], [3, 9]] : List (List ℚ)), x ≤ y →
        winNorm (winLow [[1, 5], [3, 9]]) (winHigh [[1, 5], [3, 9]]) x ≤
          winNorm (winLow [[1, 5], [3, 9]]) (winHigh [[1, 5], [3, 9]]) y) ∧
     (∀ z ∈ flat2 (window2 [[1, 5], [3, 9]]), 0 ≤ z ∧ z ≤ 1)) :=
  ⟨by decide, window_bounded_monotone _ (by decide)⟩

end Helix

namespace Helix

/-- `vertex_ai_tumor_segmentation` (src/app.py lines 35-38): min-max normalize the
volume, compute the 99.2nd percentile of the normalized values, and mark every
voxel strictly exceeding it. -/
def vertex_ai_tumor_segmentation (volume : Vol) : Arr3 Bool :=
  map3 (fun x => decide (percentile (992 / 10) (flat3 (minmaxNorm volume)) < x))
    (minmaxNorm volume)

/-- Plane extraction `a[:, :, k]` (src/app.py lines 76-77). -/
def sliceZ (k : ℕ) (v : Arr3 α) (dflt : α) : List (List α) :=
  v.map (fun p => p.map (fun r => r.getD k dflt))

/-- `slice_img` after the contrast windowing of src/app.py lines 76, 80-82. -/
def slice_img (volume : Vol) (slice_idx : ℕ) : List (List ℚ) :=
  window2 (sliceZ slice_idx volume 0)

/-- `tumor_mask_2d` (src/app.py line 77). -/
def tumor_mask_2d (volume : Vol) (slice_idx : ℕ) : List (List Bool) :=
  sliceZ slice_idx (vertex_ai_tumor_segmentation volume) false

/-- Rectangularity of a 2D array of shape `(m, n)`. -/
def wf2 (m n : ℕ) (img : List (List α)) : Prop :=
  img.length = m ∧ ∀ r ∈ img, r.length = n

instance (m n : ℕ) (img : List (List α)) : Decidable (wf2 m n img) := by
  unfold wf2; infer_instance

theorem wf3_map3 {α β : Type} (f : α → β) {n0 n1 n2 : ℕ} {v : Arr3 α}
    (hw : wf3 n0 n1 n2 v) : wf3 n0 n1 n2 (map3 f v) := by
  obtain ⟨hl, hp⟩ := hw
  refine ⟨by simpa [map3] using hl, ?_⟩
  intro p hpmem
  unfold map3 at hpmem
  obtain ⟨p0, hp0, hp0e⟩ := List.mem_map.1 hpmem
  subst hp0e
  obtain ⟨hp0l, hr⟩ := hp p0 hp0
  refine ⟨by simpa using hp0l, ?_⟩
  intro r hrmem
  obtain ⟨r0, hr0, hr0e⟩ := List.mem_map.1 hrmem
  subst hr0e
  simpa using hr r0 hr0

theorem wf2_sliceZ {α : Type} {n0 n1 n2 : ℕ} {v : Arr3 α} (k : ℕ) (dflt : α)
    (hw : wf3 n0 n1 n2 v) : wf2 n0 n1 (sliceZ k v dflt) := by
  obtain ⟨hl, hp⟩ := hw
  refine ⟨by simpa [sliceZ] using hl, ?_⟩
  intro r hrmem
  unfold sliceZ at hrmem
  obtain ⟨p0, hp0, hp0e⟩ := List.mem_map.1 hrmem
  subst hp0e
  simpa using (hp p0 hp0).1

theorem wf2_window2 {m n : ℕ} {img : List (List ℚ)} (hw : wf2 m n img) :
    wf2 m n (window2 img) := by
  obtain ⟨hl, hr⟩ := hw
  refine ⟨by simpa [window2] using hl, ?_⟩
  intro r hrmem
  unfold window2 at hrmem
  obtain ⟨r0, hr0, hr0e⟩ := List.mem_map.1 hrmem
  subst hr0e
  simpa using hr r0 hr0

theorem length_flat2 {α : Type} {m n : ℕ} {img : List (List α)} (hw : wf2 m n img) :
    (flat2 img).length = m * n := by
  obtain ⟨hl, hr⟩ := hw
  unfold flat2
  rw [List.length_flatten]
  have hrep : img.map List.length = List.replicate m n := by
    have h1 : ∀ b ∈ img.map List.length, b = n := by
      intro b hb
      obtain ⟨r, hrm, hre⟩ := List.mem_map.1 hb
      subst hre
      exact hr r hrm
    have h2 := List.eq_replicate_of_mem h1
    rwa [List.length_map, hl] at h2
  rw [hrep, List.sum_replicate, smul_eq_mul]

/-- Claim C8: for every rectangular field of shape (10,10,10) (the segmentation mask
derived from it has the same shape), slice extraction at index `10/2 = 5`
(src/app.py lines 76-77) returns a 10×10 field slice and a 10×10 mask slice, and
after the slice's local percentile windowing (lines 80-82) the field slice is a
10×10 array whose normalization denominator is strictly positive, so in exact
arithmetic no NaN value is produced. -/
theorem slice_extraction_shape_no_nan (volume : Vol) (hw : wf3 10 10 10 volume) :
    wf2 10 10 (slice_img volume (10 / 2)) ∧
    wf2 10 10 (tumor_mask_2d volume (10 / 2)) ∧
    0 < winHigh (sliceZ (10 / 2) volume 0) - winLow (sliceZ (10 / 2) volume 0) + eps := by
  have hwslice : wf2 10 10 (sliceZ (10 / 2) volume 0) := wf2_sliceZ (10 / 2) 0 hw
  have hne : flat2 (sliceZ (10 / 2) volume 0) ≠ [] := by
    have hlen := length_flat2 hwslice
    intro h
    rw [h] at hlen
    simp at hlen
  refine ⟨wf2_window2 hwslice, ?_, winNorm_denom_pos (winLow_le_winHigh hne)⟩
  have hwm : wf3 10 10 10 (vertex_ai_tumor_segmentation volume) := by
    unfold vertex_ai_tumor_segmentation minmaxNorm
    exact wf3_map3 _ (wf3_map3 _ hw)
  exact wf2_sliceZ (10 / 2) false hwm

/-- Witness for C8 at the concrete all-zero 10×10×10 field. -/
theorem slice_extraction_shape_no_nan_witness :
    wf3 10 10 10 (List.replicate 10 (List.replicate 10 (List.replicate 10 (0 : ℚ)))) ∧
    (wf2 10 10 (slice_img (List.replicate 10 (List.replicate 10 (List.replicate 10 0))) (10 / 2)) ∧
     wf2 10 10 (tumor_mask_2d (List.replicate 10 (List.replicate 10 (List.replicate 10 0))) (10 / 2)) ∧
     0 < winHigh (sliceZ (10 / 2) (List.replicate 10 (List.replicate 10 (List.replicate 10 0))) 0) -
         winLow (sliceZ (10 / 2) (List.replicate 10 (List.replicate 10 (List.replicate 10 0))) 0) + eps) :=
  ⟨by decide, slice_extraction_shape_no_nan _ (by decide)⟩

end Helix

namespace Helix

/-- `min(volume.shape)` (src/app.py line 89). -/
def minDim (v : Arr3 α) : ℕ := min (dim0 v) (min (dim1 v) (dim2 v))

/-- The peel-depth slider of src/app.py lines 86-92: `min_value=0`,
`max_value=min(volume.shape)//4`, `step=2`.  A depth is accepted (selectable in
the widget) iff it lies on the step grid of 2 starting at 0 and does not exceed
the maximum. -/
def peelDepthAccepts (v : Arr3 α) (d : ℕ) : Bool :=
  decide (d ≤ minDim v / 4) && decide (d % 2 = 0)

theorem mem_of_mem_crop1 {α : Type} {xs : List α} {a : α} {d s : ℕ}
    (h : a ∈ crop1 d s xs) : a ∈ xs :=
  List.mem_of_mem_take (List.mem_of_mem_drop h)

theorem length_crop1 {α : Type} {xs : List α} {n : ℕ} (d : ℕ) (h : xs.length = n) :
    (crop1 d (n - d) xs).length = n - 2 * d := by
  unfold crop1
  rw [List.length_drop, List.length_take, h]
  omega

theorem wf3_peelWith {α : Type} {n0 n1 n2 : ℕ} (d : ℕ) {v : Arr3 α}
    (hw : wf3 n0 n1 n2 v) :
    wf3 (n0 - 2 * d) (n1 - 2 * d) (n2 - 2 * d) (peelWith n0 n1 n2 d v) := by
  obtain ⟨hl, hp⟩ := hw
  refine ⟨by unfold peelWith; rw [List.length_map]; exact length_crop1 d hl, ?_⟩
  intro p hpmem
  unfold peelWith at hpmem
  obtain ⟨p0, hp0, hpe⟩ := List.mem_map.1 hpmem
  subst hpe
  obtain ⟨hpl, hr⟩ := hp p0 (mem_of_mem_crop1 hp0)
  refine ⟨by rw [List.length_map]; exact length_crop1 d hpl, ?_⟩
  intro r hrmem
  obtain ⟨r0, hr0, hre⟩ := List.mem_map.1 hrmem
  subst hre
  exact length_crop1 d (hr r0 (mem_of_mem_crop1 hr0))

/-- Counterexample to C2 as stated: for a 10×10×10 volume, `min(dims)//2 - 1 = 4`,
but the slider's maximum is `min(dims)//4 = 2`, so depth 4 is rejected, not
accepted. -/
theorem peel_slider_claim_counterexample :
    minDim (List.replicate 10 (List.replicate 10 (List.replicate 10 (0 : ℚ)))) / 2 - 1 = 4 ∧
    peelDepthAccepts
      (List.replicate 10 (List.replicate 10 (List.replicate 10 (0 : ℚ)))) 4 = false := by
  constructor
  · decide
  · decide

/-- Claim C2 (amended): for every volume with all axes ≥ 1, the peel-depth slider of
src/app.py lines 86-92 accepts a depth d if and only if d is even and
d ≤ min(dims)//4 — in particular it rejects every depth greater than min(dims)//4
(so every depth ≥ min(dims)//2 when min(dims) ≥ 2); every accepted depth satisfies
2d < min(dims), so the peeled volume has shape (n0-2d, n1-2d, n2-2d) with every
axis of positive length — the slider range never lets peeling collapse an axis to
zero or negative length. -/
theorem peel_slider_amended {n0 n1 n2 : ℕ} (volume : Vol) (d : ℕ)
    (hw : wf3 n0 n1 n2 volume) (h0 : 0 < n0) (h1 : 0 < n1) (h2 : 0 < n2) :
    (peelDepthAccepts volume d = true ↔
      d % 2 = 0 ∧ d ≤ min n0 (min n1 n2) / 4) ∧
    (peelDepthAccepts volume d = true →
      2 * d < min n0 (min n1 n2) ∧
      wf3 (n0 - 2 * d) (n1 - 2 * d) (n2 - 2 * d) (peeled_volume volume d) ∧
      0 < n0 - 2 * d ∧ 0 < n1 - 2 * d ∧ 0 < n2 - 2 * d) ∧
    (min n0 (min n1 n2) / 4 < d → peelDepthAccepts volume d = false) := by
  obtain ⟨e0, e1, e2⟩ := dims_of_wf3 hw h0 h1
  have hmd : minDim volume = min n0 (min n1 n2) := by
    unfold minDim
    rw [e0, e1, e2]
  have hiff : peelDepthAccepts volume d = true ↔
      d % 2 = 0 ∧ d ≤ min n0 (min n1 n2) / 4 := by
    unfold peelDepthAccepts
    rw [hmd]
    constructor
    · intro hacc
      obtain ⟨ha, hb⟩ := Bool.and_eq_true_iff.1 hacc
      exact ⟨of_decide_eq_true hb, of_decide_eq_true ha⟩
    · intro hand
      rw [Bool.and_eq_true_iff]
      exact ⟨decide_eq_true hand.2, decide_eq_true hand.1⟩
  refine ⟨hiff, ?_, ?_⟩
  · intro hacc
    obtain ⟨hdev, hdle⟩ := hiff.1 hacc
    have h2d : 2 * d < min n0 (min n1 n2) := by omega
    refine ⟨h2d, ?_, by omega, by omega, by omega⟩
    unfold peeled_volume
    rw [e0, e1, e2]
    exact wf3_peelWith d hw
  · intro hgt
    cases hcase : peelDepthAccepts volume d with
    | false => rfl
    | true =>
      obtain ⟨_, hdle⟩ := hiff.1 hcase
      exact absurd hdle (by omega)

/-- Witness for the amended C2 at a concrete 8×8×8 volume with depth 2 (an even
depth within the slider bound, hence accepted by the iff). -/
theorem peel_slider_amended_witness :
    wf3 8 8 8 (List.replicate 8 (List.replicate 8 (List.replicate 8 (0 : ℚ)))) ∧
    ((peelDepthAccepts (List.replicate 8 (List.replicate 8 (List.replicate 8 (0 : ℚ)))) 2 = true ↔
        2 % 2 = 0 ∧ 2 ≤ min 8 (min 8 8) / 4) ∧
     (peelDepthAccepts (List.replicate 8 (List.replicate 8 (List.replicate 8 (0 : ℚ)))) 2 = true →
        2 * 2 < min 8 (min 8 8) ∧
        wf3 (8 - 2 * 2) (8 - 2 * 2) (8 - 2 * 2)
          (peeled_volume (List.replicate 8 (List.replicate 8 (List.replicate 8 (0 : ℚ)))) 2) ∧
        0 < 8 - 2 * 2 ∧ 0 < 8 - 2 * 2 ∧ 0 < 8 - 2 * 2) ∧
     (min 8 (min 8 8) / 4 < 2 →
        peelDepthAccepts (List.replicate 8 (List.replicate 8 (List.replicate 8 (0 : ℚ)))) 2 = false)) :=
  ⟨by decide,
   @peel_slider_amended 8 8 8 (List.replicate 8 (List.replicate 8 (List.replicate 8 (0 : ℚ)))) 2
     (by decide) (by decide) (by decide) (by decide)⟩

/-- The local variables bound by the 3D peeling stage (src/app.py lines 111-126). -/
structure PeelStage where
  volume : Vol
  tumor_mask_3d : Arr3 Bool
  peeled_volume : Vol
  peeled_tumor : Arr3 Bool
  pv_norm : Vol

/-- src/app.py lines 111-126 as a state transformer on the stage's variables: the
three derived arrays are freshly bound from `volume` and `tumor_mask_3d` (NumPy
basic slicing and arithmetic allocate new views/arrays; the source performs no
in-place write to either input), and the inputs are carried through unchanged. -/
def runPeelStage (peel_depth : ℕ) (volume : Vol) (tumor_mask_3d : Arr3 Bool) : PeelStage :=
  { volume := volume
    tumor_mask_3d := tumor_mask_3d
    peeled_volume := peeled_volume volume peel_depth
    peeled_tumor := peeled_tumor volume tumor_mask_3d peel_depth
    pv_norm := pv_norm volume peel_depth }

/-- Claim C9: for every field, mask and peel depth, the peeling stage does not
mutate its inputs: after running src/app.py lines 111-126, the un-peeled `volume`
and `tumor_mask_3d` are unchanged and equal to their values before the stage. -/
theorem peel_stage_preserves_inputs (peel_depth : ℕ) (volume : Vol)
    (tumor_mask_3d : Arr3 Bool) :
    (runPeelStage peel_depth volume tumor_mask_3d).volume = volume ∧
    (runPeelStage peel_depth volume tumor_mask_3d).tumor_mask_3d = tumor_mask_3d :=
  ⟨rfl, rfl⟩

end Helix

namespace Helix

/-- A triangle mesh: vertex positions plus triangles as index triples into the
vertex sequence (spec §3 Mesh). -/
structure Mesh where
  verts : List (ℚ × ℚ × ℚ)
  tris : List (ℕ × ℕ × ℕ)

/-- The 8 corner offsets of a unit lattice cube, in the standard marching-cubes
corner numbering. -/
def cornerOffsets : List (ℕ × ℕ × ℕ) :=
  [(0,0,0), (1,0,0), (1,1,0), (0,1,0), (0,0,1), (1,0,1), (1,1,1), (0,1,1)]

/-- The 12 edges of a unit cube as pairs of corner indices. -/
def cubeEdges : List (ℕ × ℕ) :=
  [(0,1), (1,2), (2,3), (3,0), (4,5), (5,6), (6,7), (7,4), (0,4), (1,5), (2,6), (3,7)]

/-- Voxel lookup `v[i, j, k]` (every use reached from `mcExtract` is in bounds for
a rectangular field). -/
def get3 (v : Vol) (i j k : ℕ) : ℚ := ((v.getD i []).getD j []).getD k 0

/-- A lattice sample is above the isovalue iff it strictly exceeds it. -/
def aboveIso (iso val : ℚ) : Bool := decide (iso < val)

/-- Lattice position of a cube corner. -/
def cornerPos (x y z : ℕ) (c : ℕ × ℕ × ℕ) : ℚ × ℚ × ℚ :=
  (((x + c.1 : ℕ) : ℚ), ((y + c.2.1 : ℕ) : ℚ), ((z + c.2.2 : ℕ) : ℚ))

/-- Sample value at a cube corner. -/
def cornerVal (v : Vol) (x y z : ℕ) (c : ℕ × ℕ × ℕ) : ℚ :=
  get3 v (x + c.1) (y + c.2.1) (z + c.2.2)

/-- Modelled from the spec: the isosurface vertex on a cube edge, "linearly
interpolated along each cube edge between the two corner values according to how
far the isovalue falls between them" (spec §4.5). -/
def edgeVertex (v : Vol) (iso : ℚ) (x y z : ℕ) (e : ℕ × ℕ) : ℚ × ℚ × ℚ :=
  let ca := cornerOffsets.getD e.1 (0,0,0)
  let cb := cornerOffsets.getD e.2 (0,0,0)
  let va := cornerVal v x y z ca
  let vb := cornerVal v x y z cb
  let t := (iso - va) / (vb - va)
  let pa := cornerPos x y z ca
  let pb := cornerPos x y z cb
  (pa.1 + t * (pb.1 - pa.1), pa.2.1 + t * (pb.2.1 - pa.2.1), pa.2.2 + t * (pb.2.2 - pa.2.2))

/-- Modelled from the spec: the crossing edges of the cube at (x,y,z) — those whose
two corner samples lie on opposite sides of the isovalue — with their interpolated
vertices.  The corner-sign configuration of the cube determines this set. -/
def crossVerts (v : Vol) (iso : ℚ) (x y z : ℕ) : List (ℚ × ℚ × ℚ) :=
  (cubeEdges.filter (fun e =>
      aboveIso iso (cornerVal v x y z (cornerOffsets.getD e.1 (0,0,0))) !=
        aboveIso iso (cornerVal v x y z (cornerOffsets.getD e.2 (0,0,0))))).map
    (edgeVertex v iso x y z)

/-- Fan triangulation over `m` vertices newly appended at index `base`. -/
def fanTris (base m : ℕ) : List (ℕ × ℕ × ℕ) :=
  (List.range (m - 2)).map (fun i => (base, base + i + 1, base + i + 2))

/-- One cube's triangles and vertices appended to the accumulated mesh; a cube
whose corner signs are uniform has no crossing edge and contributes nothing. -/
def addCube (v : Vol) (iso : ℚ) (m : Mesh) (xyz : ℕ × ℕ × ℕ) : Mesh :=
  let vs := crossVerts v iso xyz.1 xyz.2.1 xyz.2.2
  { verts := m.verts ++ vs, tris := m.tris ++ fanTris m.verts.length vs.length }

/-- All unit lattice cubes of the field, in lexicographic order. -/
def cubesOf (v : Vol) : List (ℕ × ℕ × ℕ) :=
  (List.range (dim0 v - 1)).flatMap (fun x =>
    (List.range (dim1 v - 1)).flatMap (fun y =>
      (List.range (dim2 v - 1)).map (fun z => (x, y, z))))

/-- Modelled from the spec: `extract(field, isovalue) -> Mesh`, the marching-cubes
isosurface extractor of spec §4.5.  src/app.py delegates this algorithm to
`skimage.measure.marching_cubes` (lines 129 and 147-150), so its implementation is
not part of the repository's sources; this model keeps the spec's structure — the
field is scanned one unit lattice cube at a time, the corner-sign configuration of
each cube determines its triangles, vertices are interpolated along the crossing
edges, all triangles are concatenated, and duplicate vertices at shared edges are
acceptable.  The per-configuration triangle layout abstracts the standard 256-case
table by a fan over the crossing edges; like the standard table (whose entries for
the two uniform-sign configurations are empty), it emits no geometry for a cube
whose corners all lie on one side of the isovalue, which is the property the claims
rely on. -/
def mcExtract (v : Vol) (iso : ℚ) : Mesh :=
  (cubesOf v).foldl (addCube v iso) ⟨[], []⟩

/-- `np.any(mask)` (src/app.py line 146). -/
def npAny3 (m : Arr3 Bool) : Bool := (flat3 m).any id

/-- `mask.astype(np.uint8)` read as a scalar field (src/app.py line 148). -/
def maskToFloat (m : Arr3 Bool) : Vol := map3 (fun b => if b then 1 else 0) m

/-- The mesh list assembled by src/app.py lines 128-165: the brain mesh from
`marching_cubes(pv_norm, level=0.25)` always, plus the tumor mesh from
`marching_cubes(peeled_tumor.astype(uint8), level=0.5)` only when the peeled mask
has at least one true voxel. -/
def scene3dMeshes (volume : Vol) (tumor_mask_3d : Arr3 Bool) (peel_depth : ℕ) : List Mesh :=
  if npAny3 (peeled_tumor volume tumor_mask_3d peel_depth) then
    [mcExtract (pv_norm volume peel_depth) (1/4),
     mcExtract (maskToFloat (peeled_tumor volume tumor_mask_3d peel_depth)) (1/2)]
  else
    [mcExtract (pv_norm volume peel_depth) (1/4)]

end Helix

namespace Helix

theorem foldl_eq_init {β γ : Type} (f : γ → β → γ) :
    ∀ (l : List β) (b : γ), (∀ c ∈ l, ∀ acc, f acc c = acc) → l.foldl f b = b
  | [], _, _ => rfl
  | c :: t, b, h => by
    rw [List.foldl_cons, h c (List.mem_cons_self _ _) b]
    exact foldl_eq_init f t b (fun c2 hc2 => h c2 (List.mem_cons.2 (Or.inr hc2)))

theorem crossVerts_eq_nil (v : Vol) (iso : ℚ) (x y z : ℕ) (b : Bool)
    (h : ∀ c ∈ cornerOffsets, aboveIso iso (cornerVal v x y z c) = b) :
    crossVerts v iso x y z = [] := by
  unfold crossVerts
  have hmem : ∀ e ∈ cubeEdges, cornerOffsets.getD e.1 (0,0,0) ∈ cornerOffsets ∧
      cornerOffsets.getD e.2 (0,0,0) ∈ cornerOffsets := by decide
  have hfilter : cubeEdges.filter (fun e =>
      aboveIso iso (cornerVal v x y z (cornerOffsets.getD e.1 (0,0,0))) !=
        aboveIso iso (cornerVal v x y z (cornerOffsets.getD e.2 (0,0,0)))) = [] := by
    rw [List.filter_eq_nil_iff]
    intro e he
    obtain ⟨h1, h2⟩ := hmem e he
    rw [h _ h1, h _ h2]
    simp
  rw [hfilter]
  rfl

theorem get3_mem_flat3 {n0 n1 n2 : ℕ} {v : Vol} (hw : wf3 n0 n1 n2 v)
    {i j k : ℕ} (hi : i < n0) (hj : j < n1) (hk : k < n2) :
    get3 v i j k ∈ flat3 v := by
  obtain ⟨hl, hp⟩ := hw
  have hi2 : i < v.length := by omega
  have hpm : v.getD i [] ∈ v := by
    rw [List.getD_eq_getElem v [] hi2]
    exact List.getElem_mem hi2
  obtain ⟨hpl, hr⟩ := hp _ hpm
  have hj2 : j < (v.getD i []).length := by omega
  have hrm : (v.getD i []).getD j [] ∈ v.getD i [] := by
    rw [List.getD_eq_getElem _ [] hj2]
    exact List.getElem_mem hj2
  have hk2 : k < ((v.getD i []).getD j []).length := by
    rw [hr _ hrm]
    omega
  have hxm : get3 v i j k ∈ (v.getD i []).getD j [] := by
    unfold get3
    rw [List.getD_eq_getElem _ 0 hk2]
    exact List.getElem_mem hk2
  unfold flat3
  rw [List.mem_flatten]
  refine ⟨(v.getD i []).flatten, List.mem_map.2 ⟨v.getD i [], hpm, rfl⟩, ?_⟩
  rw [List.mem_flatten]
  exact ⟨(v.getD i []).getD j [], hrm, hxm⟩

theorem cubesOf_bounds {v : Vol} {xyz : ℕ × ℕ × ℕ} (h : xyz ∈ cubesOf v) :
    xyz.1 < dim0 v - 1 ∧ xyz.2.1 < dim1 v - 1 ∧ xyz.2.2 < dim2 v - 1 := by
  unfold cubesOf at h
  rw [List.mem_flatMap] at h
  obtain ⟨x, hx, h2⟩ := h
  rw [List.mem_flatMap] at h2
  obtain ⟨y, hy, h3⟩ := h2
  rw [List.mem_map] at h3
  obtain ⟨z, hz, he⟩ := h3
  rw [List.mem_range] at hx hy hz
  rw [← he]
  exact ⟨hx, hy, hz⟩

/-- Claim C1: for every rectangular 3D scalar field and every isovalue strictly
outside the field's value range (above its maximum or below its minimum), the
spec-modelled isosurface extraction returns an empty Mesh (zero vertices, zero
triangles): no cube has corners on both sides of the isovalue, so no cube
contributes geometry, and the extraction is a total function (no error). -/
theorem mc_out_of_range_empty {n0 n1 n2 : ℕ} (v : Vol) (iso : ℚ)
    (hw : wf3 n0 n1 n2 v)
    (hiso : vmax v < iso ∨ iso < vmin v) :
    mcExtract v iso = ⟨[], []⟩ := by
  unfold mcExtract
  apply foldl_eq_init
  intro xyz hxyz acc
  obtain ⟨hx, hy, hz⟩ := cubesOf_bounds hxyz
  have hn0 : 2 ≤ n0 := by
    have hl0 : dim0 v = n0 := hw.1
    omega
  have hn1 : 2 ≤ n1 := by
    cases v with
    | nil =>
      have hl0 : dim0 ([] : Vol) = n0 := hw.1
      simp [dim0] at hl0
      omega
    | cons p t =>
      have hpm := (hw.2 p (List.mem_cons_self _ _)).1
      have hdp : dim1 (p :: t) = p.length := by simp [dim1]
      rw [hdp, hpm] at hy
      omega
  obtain ⟨e0, e1, e2⟩ := dims_of_wf3 hw (by omega) (by omega)
  rw [e0] at hx
  rw [e1] at hy
  rw [e2] at hz
  have hall : ∀ c ∈ cornerOffsets, c.1 ≤ 1 ∧ c.2.1 ≤ 1 ∧ c.2.2 ≤ 1 := by decide
  have hcorner : ∀ c ∈ cornerOffsets,
      cornerVal v xyz.1 xyz.2.1 xyz.2.2 c ∈ flat3 v := by
    intro c hc
    have hcb := hall c hc
    unfold cornerVal
    apply get3_mem_flat3 hw
    · omega
    · omega
    · omega
  have hcv : crossVerts v iso xyz.1 xyz.2.1 xyz.2.2 = [] := by
    rcases hiso with hgt | hlt
    · apply crossVerts_eq_nil v iso _ _ _ false
      intro c hc
      have hle : cornerVal v xyz.1 xyz.2.1 xyz.2.2 c ≤ vmax v :=
        mem_le_amax (hcorner c hc)
      exact decide_eq_false (not_lt.2 (by linarith))
    · apply crossVerts_eq_nil v iso _ _ _ true
      intro c hc
      have hge : vmin v ≤ cornerVal v xyz.1 xyz.2.1 xyz.2.2 c :=
        amin_le_mem (hcorner c hc)
      exact decide_eq_true (by linarith)
  unfold addCube
  rw [hcv]
  cases acc with
  | mk verts tris => simp [fanTris]

/-- Witness for C1 at a concrete 2×2×2 field with isovalue 9 above its maximum. -/
theorem mc_out_of_range_empty_witness :
    wf3 2 2 2 ([[[0,1],[2,3]],[[4,5],[6,7]]] : Vol) ∧
    (vmax [[[0,1],[2,3]],[[4,5],[6,7]]] < 9 ∨
      (9 : ℚ) < vmin [[[0,1],[2,3]],[[4,5],[6,7]]]) ∧
    mcExtract [[[0,1],[2,3]],[[4,5],[6,7]]] 9 = ⟨[], []⟩ :=
  ⟨by decide, Or.inl (by decide),
   @mc_out_of_range_empty 2 2 2 _ 9 (by decide) (Or.inl (by decide))⟩

/-- Claim C7: an all-false (empty) segmentation mask is a valid, non-error outcome:
for every volume, mask and peel depth, when the peeled mask contains no true voxel,
src/app.py lines 143-165 produce a scene holding exactly the brain mesh — the tumor
mesh is suppressed and the pipeline still yields a scene. -/
theorem empty_mask_suppresses_tumor_mesh (volume : Vol) (tumor_mask_3d : Arr3 Bool)
    (peel_depth : ℕ)
    (hempty : npAny3 (peeled_tumor volume tumor_mask_3d peel_depth) = false) :
    scene3dMeshes volume tumor_mask_3d peel_depth =
      [mcExtract (pv_norm volume peel_depth) (1/4)] := by
  unfold scene3dMeshes
  rw [hempty]
  simp

/-- Witness for C7 at a concrete 2×2×2 volume with the all-false mask. -/
theorem empty_mask_suppresses_tumor_mesh_witness :
    npAny3 (peeled_tumor [[[0,1],[2,3]],[[4,5],[6,7]]]
      (List.replicate 2 (List.replicate 2 (List.replicate 2 false))) 0) = false ∧
    scene3dMeshes [[[0,1],[2,3]],[[4,5],[6,7]]]
      (List.replicate 2 (List.replicate 2 (List.replicate 2 false))) 0 =
      [mcExtract (pv_norm [[[0,1],[2,3]],[[4,5],[6,7]]] 0) (1/4)] :=
  ⟨by decide, empty_mask_suppresses_tumor_mesh _ _ 0 (by decide)⟩

end Helix

namespace Helix

theorem length_flat3 {α : Type} {n0 n1 n2 : ℕ} {v : Arr3 α} (hw : wf3 n0 n1 n2 v) :
    (flat3 v).length = n0 * (n1 * n2) := by
  obtain ⟨hl, hp⟩ := hw
  unfold flat3
  rw [List.length_flatten]
  have h1 : ∀ b ∈ (v.map List.flatten).map List.length, b = n1 * n2 := by
    intro b hb
    rw [List.map_map] at hb
    obtain ⟨p, hpm, hpe⟩ := List.mem_map.1 hb
    obtain ⟨hpl, hr⟩ := hp p hpm
    rw [← hpe]
    simpa [flat2] using length_flat2 (And.intro hpl hr)
  have h2 := List.eq_replicate_of_mem h1
  rw [List.length_map, List.length_map, hl] at h2
  rw [h2, List.sum_replicate, smul_eq_mul]

theorem minmaxNorm_mem_range {v : Vol} (hne : flat3 v ≠ []) :
    (∀ x ∈ flat3 (minmaxNorm v), 0 ≤ x ∧ x ≤ 1) ∧ 0 ∈ flat3 (minmaxNorm v) := by
  have hd := minmax_denom_pos hne
  have he := eps_pos
  constructor
  · intro x hx
    unfold minmaxNorm at hx
    rw [flat3_map3] at hx
    obtain ⟨y, hy, hye⟩ := List.mem_map.1 hx
    have h1 : vmin v ≤ y := amin_le_mem hy
    have h2 : y ≤ vmax v := mem_le_amax hy
    rw [← hye]
    constructor
    · exact div_nonneg (by linarith) (le_of_lt hd)
    · rw [div_le_one hd]
      linarith
  · unfold minmaxNorm
    rw [flat3_map3]
    refine List.mem_map.2 ⟨vmin v, amin_mem hne, ?_⟩
    simp

/-- Claim C10: for every volume with all axes ≥ 1 and every in-bounds peel depth,
the field handed to the brain isosurface extraction (the head mesh of the assembled
scene) is `pv_norm`, the peeled volume re-normalized by min-max over the peeled
volume's own minimum and maximum (src/app.py lines 124-129): all its values lie in
[0,1] and its minimum value is exactly 0 (the peeled sub-volume's own minimum maps
to 0, which would fail under normalization by the original volume's wider range),
so the fixed brain isovalue 0.25 is interpreted relative to the peeled sub-volume's
intensity range. -/
theorem pv_norm_own_range {n0 n1 n2 : ℕ} (volume : Vol) (peel_depth : ℕ)
    (hw : wf3 n0 n1 n2 volume)
    (hbound : 2 * peel_depth < min n0 (min n1 n2)) :
    pv_norm volume peel_depth = minmaxNorm (peeled_volume volume peel_depth) ∧
    (∀ tumor_mask_3d : Arr3 Bool,
      (scene3dMeshes volume tumor_mask_3d peel_depth).head? =
        some (mcExtract (pv_norm volume peel_depth) (1/4))) ∧
    (∀ x ∈ flat3 (pv_norm volume peel_depth), 0 ≤ x ∧ x ≤ 1) ∧
    0 ∈ flat3 (pv_norm volume peel_depth) := by
  have hm0 : 2 * peel_depth < n0 := lt_of_lt_of_le hbound (min_le_left _ _)
  have hm1 : 2 * peel_depth < n1 :=
    lt_of_lt_of_le hbound (le_trans (min_le_right _ _) (min_le_left _ _))
  have hm2 : 2 * peel_depth < n2 :=
    lt_of_lt_of_le hbound (le_trans (min_le_right _ _) (min_le_right _ _))
  obtain ⟨e0, e1, e2⟩ := dims_of_wf3 hw (by omega) (by omega)
  have hwp : wf3 (n0 - 2 * peel_depth) (n1 - 2 * peel_depth) (n2 - 2 * peel_depth)
      (peeled_volume volume peel_depth) := by
    unfold peeled_volume
    rw [e0, e1, e2]
    exact wf3_peelWith peel_depth hw
  have hlen := length_flat3 hwp
  have hne : flat3 (peeled_volume volume peel_depth) ≠ [] := by
    intro h
    rw [h] at hlen
    simp at hlen
    omega
  have hrange := minmaxNorm_mem_range hne
  refine ⟨rfl, ?_, ?_, ?_⟩
  · intro tumor_mask_3d
    unfold scene3dMeshes
    cases npAny3 (peeled_tumor volume tumor_mask_3d peel_depth) with
    | false => rfl
    | true => rfl
  · intro x hx
    exact hrange.1 x (by simpa [pv_norm] using hx)
  · simpa [pv_norm] using hrange.2

/-- Witness for C10 at a concrete 3×3×3 volume with depth 1. -/
theorem pv_norm_own_range_witness :
    wf3 3 3 3 ([[[0,1,2],[3,4,5],[6,7,8]],
                [[9,10,11],[12,13,14],[15,16,17]],
                [[18,19,20],[21,22,23],[24,25,26]]] : Vol) ∧
    2 * 1 < min 3 (min 3 3) ∧
    (pv_norm [[[0,1,2],[3,4,5],[6,7,8]],
              [[9,10,11],[12,13,14],[15,16,17]],
              [[18,19,20],[21,22,23],[24,25,26]]] 1 =
       minmaxNorm (peeled_volume [[[0,1,2],[3,4,5],[6,7,8]],
              [[9,10,11],[12,13,14],[15,16,17]],
              [[18,19,20],[21,22,23],[24,25,26]]] 1) ∧
     (∀ tumor_mask_3d : Arr3 Bool,
       (scene3dMeshes [[[0,1,2],[3,4,5],[6,7,8]],
              [[9,10,11],[12,13,14],[15,16,17]],
              [[18,19,20],[21,22,23],[24,25,26]]] tumor_mask_3d 1).head? =
         some (mcExtract (pv_norm [[[0,1,2],[3,4,5],[6,7,8]],
              [[9,10,11],[12,13,14],[15,16,17]],
              [[18,19,20],[21,22,23],[24,25,26]]] 1) (1/4))) ∧
     (∀ x ∈ flat3 (pv_norm [[[0,1,2],[3,4,5],[6,7,8]],
              [[9,10,11],[12,13,14],[15,16,17]],
              [[18,19,20],[21,22,23],[24,25,26]]] 1), 0 ≤ x ∧ x ≤ 1) ∧
     0 ∈ flat3 (pv_norm [[[0,1,2],[3,4,5],[6,7,8]],
              [[9,10,11],[12,13,14],[15,16,17]],
              [[18,19,20],[21,22,23],[24,25,26]]] 1)) :=
  ⟨by decide, by decide,
   @pv_norm_own_range 3 3 3 _ 1 (by decide) (by decide)⟩

end Helix
